import Mathlib

/-!
Formal model of the LineRate Node.js REST API module (lib/index.js), centred on
the configuration-tree write scheduler `Linerate.prototype.work`, the type
inference table `Linerate.prototype.get_type`, and the workflow orchestrator
`Linerate.prototype.create_vip`.

Modelling conventions:

* JavaScript values that flow through the scheduler are modelled by `JVal`
  (strings, numbers, nested objects, null/undefined).  A configuration object
  is an insertion-ordered association list (JS `for (var key in obj)`
  enumerates own string keys in insertion order; keys are unique in a JS
  object, which theorems assume via `Nodup` hypotheses where it matters).
* The callback web of `work` (built from `async.forEachOfSeries` over the five
  task slots and `async.each` within a slot, plus `put`) is defunctionalised
  into a small-step machine.  Synchronous JavaScript execution is a LIFO task
  stack; each HTTP PUT dispatched by `put` becomes a pending operation in a
  FIFO queue whose completion is delivered only once the synchronous stack has
  drained, matching the node.js event loop (a response can never interrupt
  synchronous code, and responses are delivered here in dispatch order).
* The transport is a function `String → Bool` telling, for each REST node
  path, whether the PUT receives an OK (200) response.  Paths are recorded at
  the `node` granularity; the constant `this.rest_url` prefix and body
  formatting of `put` do not affect any claim.
-/

/-- Subset of JavaScript values the scheduler manipulates.  `vnull` stands for
both `null` and `undefined` (they behave identically in every expression the
scheduler evaluates: both are falsy and neither is `0` or `1`). -/
inductive JVal where
  | vstr (s : String)
  | vnum (n : Int)
  | vobj (fields : List (String × JVal))
  | vnull
deriving Inhabited

/-- A JavaScript object as seen by `for (var key in obj)`: its own enumerable
properties in insertion order. -/
abbrev JObj := List (String × JVal)

/-- JavaScript string coercion, as used by `node + '/' + item['name']`. -/
def jstr : JVal → String
  | .vstr s => s
  | .vnum n => toString n
  | .vobj _ => "[object Object]"
  | .vnull => "null"

/-- JavaScript falsiness of the values in `JVal` (`!x` in `if (!opts.data)`):
`null`/`undefined`, the number `0` and the empty string are falsy; every
object is truthy. -/
def falsy : JVal → Bool
  | .vnull => true
  | .vnum n => n = 0
  | .vstr s => s = ""
  | .vobj _ => false

/-- Strict equality `v === n` of a value against a number literal, as in
`obj[key] === 0` and `obj[key] === 1`. -/
def jeqNum (v : JVal) (n : Int) : Bool :=
  match v with
  | .vnum m => m = n
  | _ => false

/-- Property lookup `obj[key]`: `none` models `undefined` (absent key). -/
def jget (o : JObj) (k : String) : Option JVal :=
  (o.find? (fun kv => kv.1 = k)).map (fun kv => kv.2)

/-- Truthiness of a possibly-absent value (`data.name`, `msg` …). -/
def truthyOpt : Option JVal → Bool
  | none => false
  | some v => !falsy v

/-- The fields `for (var key in v)` would enumerate when `work` recurses into
a subtree value: the own properties of an object, nothing for `null`,
`undefined` or a number.  (A string value would enumerate its character
indices; no subtree-bearing key ever carries a string in this module's API.) -/
def objFields : JVal → JObj
  | .vobj o => o
  | _ => []

/-- `Linerate.prototype.get_type`: the pure type-inference table.  Unknown
keys fall through the `switch` to `default: return 'string'`. -/
def get_type (key : String) : String :=
  if key = "adminStatus" then "uint32"
  else if key = "backlog" then "uint32"
  else if key = "ipAddress" then "socket-addr"
  else if key = "isProxy" then "uint32"
  else if key = "keepAliveTimeout" then "double"
  else if key = "maxConnections" then "uint32"
  else if key = "maxEmbryonicConns" then "uint32"
  else if key = "maxHeaderSize" then "uint32"
  else if key = "maxInFlight" then "uint32"
  else if key = "serviceHttp" then "sub"
  else if key = "serviceType" then "uint32"
  else "string"

/-- The key names carrying an explicit `case` in `get_type`'s `switch`. -/
def knownTypeKeys : List String :=
  ["adminStatus", "backlog", "ipAddress", "isProxy", "keepAliveTimeout",
   "maxConnections", "maxEmbryonicConns", "maxHeaderSize", "maxInFlight",
   "serviceHttp", "serviceType"]

/-- The five task slots built by the partition loop at the top of `work`:
`tasks[0]` (queue first / Naming), `tasks[1]` (Disable), `tasks[2]` (General),
`tasks[3]` (recursive / Subtree), `tasks[4]` (queue last / Enable).  Each
entry is the single key/value pair of the pushed one-property object. -/
structure Slots where
  s0 : List (String × JVal)
  s1 : List (String × JVal)
  s2 : List (String × JVal)
  s3 : List (String × JVal)
  s4 : List (String × JVal)
deriving Inhabited

def emptySlots : Slots := ⟨[], [], [], [], []⟩

/-- One iteration of the `for (var key in obj)` partition loop in `work`.
Note the exact source structure: `name` goes to slot 0; `adminStatus` goes to
slot 1 when `=== 0`, to slot 4 when `=== 1`, and is pushed *nowhere*
otherwise; keys in `['serviceHttp']` go to slot 3; everything else to
slot 2. -/
def partitionStep (ts : Slots) (kv : String × JVal) : Slots :=
  if kv.1 = "name" then { ts with s0 := ts.s0 ++ [("name", kv.2)] }
  else if kv.1 = "adminStatus" then
    if jeqNum kv.2 0 then { ts with s1 := ts.s1 ++ [("adminStatus", kv.2)] }
    else if jeqNum kv.2 1 then { ts with s4 := ts.s4 ++ [("adminStatus", kv.2)] }
    else ts
  else if kv.1 = "serviceHttp" then { ts with s3 := ts.s3 ++ [("serviceHttp", kv.2)] }
  else { ts with s2 := ts.s2 ++ [(kv.1, kv.2)] }

/-- The partition loop of `Linerate.prototype.work` (lines 705–742). -/
def partitionTasks (obj : JObj) : Slots :=
  obj.foldl partitionStep emptySlots

/-- Fields the partition loop sends to the Naming slot. -/
def slot0Spec (obj : JObj) : List (String × JVal) :=
  obj.filterMap (fun kv => if kv.1 = "name" then some ("name", kv.2) else none)

/-- Fields the partition loop sends to the Disable slot. -/
def slot1Spec (obj : JObj) : List (String × JVal) :=
  obj.filterMap (fun kv =>
    if kv.1 = "adminStatus" ∧ jeqNum kv.2 0 then some ("adminStatus", kv.2) else none)

/-- Fields the partition loop sends to the General slot. -/
def slot2Spec (obj : JObj) : List (String × JVal) :=
  obj.filterMap (fun kv =>
    if kv.1 ≠ "name" ∧ kv.1 ≠ "adminStatus" ∧ kv.1 ≠ "serviceHttp"
    then some (kv.1, kv.2) else none)

/-- Fields the partition loop sends to the Subtree slot. -/
def slot3Spec (obj : JObj) : List (String × JVal) :=
  obj.filterMap (fun kv =>
    if kv.1 = "serviceHttp" then some ("serviceHttp", kv.2) else none)

/-- Fields the partition loop sends to the Enable slot. -/
def slot4Spec (obj : JObj) : List (String × JVal) :=
  obj.filterMap (fun kv =>
    if kv.1 = "adminStatus" ∧ jeqNum kv.2 1 then some ("adminStatus", kv.2) else none)

/-- Look up one of the five slots by the `async.forEachOfSeries` key. -/
def slotGet (ts : Slots) : Nat → List (String × JVal)
  | 0 => ts.s0
  | 1 => ts.s1
  | 2 => ts.s2
  | 3 => ts.s3
  | _ => ts.s4

/-- Who receives a `work` invocation's final `cb()`:  the top-level caller, or
the anonymous callback of a recursive Subtree invocation
(`function(err, results) { if (err) { cb_each(err); return; } }`, line
766–771).  Since `work` invokes `cb()` with no argument (line 802), that
recursive callback body is a no-op in every reachable execution. -/
inductive WCont where
  | ctop
  | csub
deriving Inhabited, DecidableEq

/-- The mutable per-invocation state of one `work` call: the (mutated by the
Naming iteration) `node` variable, the partitioned `tasks`, the
`async.forEachOfSeries` position `slot` (5 once all slots are done), and the
`async.each` bookkeeping for the current slot: how many item callbacks are
still outstanding.  A completion whose recorded slot differs from the current
`slot` belongs to an `async.each` instance that already fired its final
callback (after an error) and is discarded, as `async` does. -/
structure WInv where
  node : String
  ts : Slots
  slot : Nat
  outstanding : Nat
  parent : WCont
deriving Inhabited

/-- Observable events of a run, in order of occurrence. -/
inductive Ev where
  | evPut (path ty : String)
  | evComplete (path : String) (ok : Bool)
  | evWorkStart (id : Nat) (node : String)
  | evWorkDone (id : Nat)
  | evLog (msg : String)
deriving Inhabited, DecidableEq

/-- Defunctionalised synchronous continuations (the JavaScript call stack):
entering `work`; `async.forEachOfSeries` starting the current slot; the
`async.each` iteratee applied to one slot item; the scalar `put` the Subtree
branch falls through to with `d.node` still `null` (the missing early return
after the recursive `self.work` call, line 779); and an invocation of an
item's `cb_each` with an optional error. -/
inductive WTask where
  | spawnWork (node : String) (obj : JObj) (parent : WCont)
  | startSlot (inv : Nat)
  | dispatchItem (inv slotIdx : Nat) (leaf : String) (v : JVal)
  | putNull (inv slotIdx : Nat)
  | cbEach (inv slotIdx : Nat) (err : Option String)
deriving Inhabited

/-- An HTTP PUT dispatched by `put` and awaiting its response. -/
structure Pend where
  inv : Nat
  slotIdx : Nat
  path : String
deriving Inhabited

/-- Global machine state: the heap of `work` invocation records (index is the
invocation id, 0 the outermost), the synchronous LIFO stack, the FIFO queue
of in-flight PUTs, and the event trace. -/
structure St where
  heap : List WInv
  stack : List WTask
  queue : List Pend
  trace : List Ev
deriving Inhabited

/-- Read invocation `i` (total, with a junk default like a JS heap read). -/
def getInv (h : List WInv) (i : Nat) : WInv := h.getD i default

/-- Update invocation `i` in place. -/
def updInv : List WInv → Nat → (WInv → WInv) → List WInv
  | [], _, _ => []
  | w :: t, 0, f => f w :: t
  | w :: t, n + 1, f => w :: updInv t n f

/-- The error string `put` produces when `check_node` rejects a non-string
node (`callback('\x27node\x27 must be a string')`). -/
def nodeErrMsg : String := "\x27node\x27 must be a string"

/-- The error string `put` produces for falsy `opts.data`
(`callback('missing data')`). -/
def missingDataMsg : String := "missing data"

/-- The error string `work`'s `put` callback receives when `check_response`
rejects a non-200 reply (`callback('Response contained an error code')`). -/
def badResponseMsg : String := "Response contained an error code"

/-- The synchronous part of `Linerate.prototype.put` as invoked from `work`
with a string node (the `d.node = null` case is `WTask.putNull`): `check_node`
passes, `opts` is the object `d.value`, so `if (!opts.data)` fails falsy data
synchronously; otherwise the HTTP PUT is dispatched and queued.  `ty` is
`d.value.type`, recorded with the dispatch. -/
def putStep (i slotIdx : Nat) (node : String) (data : JVal) (ty : String) (s : St) : St :=
  if falsy data then { s with stack := .cbEach i slotIdx (some missingDataMsg) :: s.stack }
  else { s with trace := s.trace ++ [.evPut node ty],
                queue := s.queue ++ [⟨i, slotIdx, node⟩] }

/-- Execute one synchronous task (one piece of JavaScript between suspension
points). -/
def execTask (t : WTask) (s : St) : St :=
  match t with
  | .spawnWork node obj parent =>
      -- entering `work`: partition the object, then `async.forEachOfSeries`
      -- synchronously starts slot 0
      { s with heap := s.heap ++ [⟨node, partitionTasks obj, 0, 0, parent⟩],
               trace := s.trace ++ [.evWorkStart s.heap.length node],
               stack := .startSlot s.heap.length :: s.stack }
  | .startSlot i =>
      let w := getInv s.heap i
      if w.slot ≥ 5 then
        -- all five slots exhausted: `work` invokes `cb()` (line 802) with no
        -- error regardless of logged failures; a `csub` parent's callback
        -- body does nothing since `err` is never set
        { s with trace := s.trace ++ [.evWorkDone i] }
      else
        match slotGet w.ts w.slot with
        | [] =>
            -- `async.each([], …)` fires its final callback synchronously with
            -- no error; the slot callback runs `callback()` and the series
            -- advances
            { s with heap := updInv s.heap i (fun w => { w with slot := w.slot + 1 }),
                     stack := .startSlot i :: s.stack }
        | items =>
            -- `async.each` dispatches every item's iteratee in array order
            { s with heap := updInv s.heap i (fun w => { w with outstanding := items.length }),
                     stack := items.map (fun kv => .dispatchItem i w.slot kv.1 kv.2) ++ s.stack }
  | .dispatchItem i slotIdx leaf v =>
      let w := getInv s.heap i
      if slotIdx = 0 ∧ leaf = "name" then
        -- `node = node + '/' + item['name']` mutates the invocation's node
        -- for every later iteration, then the name itself is PUT at the new
        -- node with type `get_type('name')`
        let nd := w.node ++ "/" ++ jstr v
        putStep i slotIdx nd v (get_type "name")
          { s with heap := updInv s.heap i (fun w => { w with node := nd }) }
      else if slotIdx = 3 then
        -- Subtree: `self.work(node + '/' + leaf, item[leaf], …)` runs
        -- synchronously up to its first suspension, and then — the branch
        -- does not return — control falls through to `self.put(d.node, …)`
        -- with `d.node` still `null`
        { s with stack := .spawnWork (w.node ++ "/" ++ leaf) (objFields v) .csub
                            :: .putNull i slotIdx :: s.stack }
      else
        putStep i slotIdx (w.node ++ "/" ++ leaf) v (get_type leaf) s
  | .putNull i slotIdx =>
      -- `put(null, …)`: `check_node(null)` is false, so `put` synchronously
      -- calls back with the node-type error, which `work` forwards to
      -- `cb_each`
      { s with stack := .cbEach i slotIdx (some nodeErrMsg) :: s.stack }
  | .cbEach i slotIdx err =>
      let w := getInv s.heap i
      if w.slot ≠ slotIdx then s  -- late callback of an already-failed slot: ignored
      else
        match err with
        | some e =>
            -- `async.each` fires the slot's final callback at the first
            -- error; `work` logs it (`console.log(err)`) and calls
            -- `callback()` with *no* error, so the series advances
            { s with heap := updInv s.heap i (fun w => { w with slot := w.slot + 1 }),
                     trace := s.trace ++ [.evLog e],
                     stack := .startSlot i :: s.stack }
        | none =>
            if w.outstanding ≤ 1 then
              -- last item of the slot resolved: final callback, advance
              { s with heap := updInv s.heap i
                         (fun w => { w with outstanding := 0, slot := w.slot + 1 }),
                       stack := .startSlot i :: s.stack }
            else
              { s with heap := updInv s.heap i
                         (fun w => { w with outstanding := w.outstanding - 1 }) }

/-- One machine step: run the synchronous stack to exhaustion; once it is
empty, deliver the oldest in-flight PUT response.  `T path` tells whether the
response status is 200 (`check_response` accepts exactly 200 for PUT); a
non-200 reply reaches `work`'s callback as the response-error string.  `none`
means the run has terminated. -/
def step (T : String → Bool) (s : St) : Option St :=
  match s.stack with
  | t :: rest => some (execTask t { s with stack := rest })
  | [] =>
      match s.queue with
      | [] => none
      | p :: q =>
          some { s with queue := q,
                        trace := s.trace ++ [.evComplete p.path (T p.path)],
                        stack := [.cbEach p.inv p.slotIdx
                                   (if T p.path then none else some badResponseMsg)] }

/-- Run the machine for at most `fuel` steps. -/
def runM (T : String → Bool) : Nat → St → St
  | 0, s => s
  | fuel + 1, s =>
      match step T s with
      | none => s
      | some s2 => runM T fuel s2

/-- Initial state of `work(node, obj, cb)` called from the outside. -/
def initSt (node : String) (obj : JObj) : St :=
  ⟨[], [.spawnWork node obj .ctop], [], []⟩

/-- A whole `work` run against transport `T`. -/
def workRun (T : String → Bool) (fuel : Nat) (node : String) (obj : JObj) : St :=
  runM T fuel (initSt node obj)

/-- The (path, wire type) pairs of the PUTs dispatched in a trace, in order. -/
def putsOf (tr : List Ev) : List (String × String) :=
  tr.filterMap (fun e => match e with
    | .evPut p ty => some (p, ty)
    | _ => none)

/-- The run has terminated: no synchronous work and no in-flight PUT. -/
def doneB (s : St) : Bool := s.stack.isEmpty && s.queue.isEmpty

/-- Property access `v.k` on an arbitrary value: `undefined` unless `v` is an
object carrying the key. -/
def jprop (v : JVal) (k : String) : Option JVal :=
  match v with
  | .vobj o => jget o k
  | _ => none

/-- Outcome of the HTTP exchange underlying one `get` call: a transport-level
error (`request`'s `error` argument set), or a response with a status code
and a parsed JSON body. -/
inductive ReadOutcome where
  | rerr
  | rresp (status : Nat) (body : JVal)

/-- What `get`'s response handler does with the caller's callback. -/
inductive GetStep where
  | gthrow
  | gcb (err : Option String) (msg : Option JVal)

/-- `format_response_get`: strips the single top-level key from the response
body (`response[Object.keys(response)[0]]`); `undefined` when the body has no
key. -/
def format_response_get (body : JVal) : Option JVal :=
  match body with
  | .vobj ((_, v) :: _) => some v
  | _ => none

/-- `Linerate.prototype.get` (lines 134–175) as seen by its caller: a
transport error hits `throw new Error('err')` and the callback is never
invoked; a non-200 status (`check_response` for GET accepts exactly 200)
yields `callback('Response contained an error code')` with no message; a 200
yields `callback(null, format_response_get(body))`. -/
def getModel (ro : ReadOutcome) : GetStep :=
  match ro with
  | .rerr => .gthrow
  | .rresp status body =>
      if status = 200 then .gcb none (format_response_get body)
      else .gcb (some badResponseMsg) none

/-- The existence test in `create_vip`'s first series task:
`if (msg && msg.httpResponseCode !== 404)`.  The `err` argument of the
callback is never consulted.  Note `undefined !== 404` is true, so a truthy
`msg` without an `httpResponseCode` property also counts as existing. -/
def existsCheck (msg : Option JVal) : Bool :=
  truthyOpt msg &&
    !(match msg with
      | some m =>
          (match jprop m "httpResponseCode" with
           | some v => jeqNum v 404
           | none => false)
      | none => false)

/-- How `create_vip` ends, from its caller's point of view. -/
inductive VipOutcome where
  | threw
  | noCallback (logged : String)
  | calledBack (err : Option String) (msg : Option String)
deriving Inhabited, DecidableEq

/-- `Linerate.prototype.create_vip` (lines 878–928).  `ro` is the outcome of
the existence GET on `/config/app/proxy/virtualIP/<name>`; `T` and `fuel`
drive the `work` machine of the second series task.  Control flow from the
source: a falsy `data.name` is rejected before any I/O; the first
`async.series` task runs `get_vip` — on a thrown `get` the callback chain
dies (`threw`); on `existsCheck` the task errs with `'vip already exists!'`,
and the series final callback then only does `console.log(err); return;`, so
the caller is never called back (`noCallback`); otherwise the second task
runs `work`, whose `cb()` always arrives errorless, the task yields
`'sub-nodes created'`, and the final callback replies
`callback(null, 'vip created')`.  The returned event list is the `work`
run's trace (the existence GET issues no PUT). -/
def create_vip (data : JObj) (ro : ReadOutcome) (T : String → Bool) (fuel : Nat) :
    VipOutcome × List Ev :=
  if !truthyOpt (jget data "name") then (.calledBack (some "VIP name required") none, [])
  else
    match getModel ro with
    | .gthrow => (.threw, [])
    | .gcb _ msg =>
        if existsCheck msg then (.noCallback "vip already exists!", [])
        else
          let r := workRun T fuel "/config/app/proxy/virtualIP" data
          (.calledBack none (some "vip created"), r.trace)

/-- Shift every invocation id in a task by `n` (fresh ids in a later run sit
above the `n` dead records an earlier run left in the heap). -/
def shiftTask (n : Nat) : WTask → WTask
  | .spawnWork nd obj p => .spawnWork nd obj p
  | .startSlot i => .startSlot (i + n)
  | .dispatchItem i s l v => .dispatchItem (i + n) s l v
  | .putNull i s => .putNull (i + n) s
  | .cbEach i s e => .cbEach (i + n) s e

/-- Shift the invocation id of a pending PUT by `n`. -/
def shiftPend (n : Nat) (p : Pend) : Pend := ⟨p.inv + n, p.slotIdx, p.path⟩

/-- Shift the invocation ids mentioned by an event by `n`. -/
def shiftEv (n : Nat) : Ev → Ev
  | .evWorkStart i nd => .evWorkStart (i + n) nd
  | .evWorkDone i => .evWorkDone (i + n)
  | e => e

/-- A machine state as it looks when re-run on top of `n = h0.length` dead
invocation records and an already-produced trace `t0`. -/
def shiftSt (h0 : List WInv) (t0 : List Ev) (s : St) : St :=
  ⟨h0 ++ s.heap, s.stack.map (shiftTask h0.length), s.queue.map (shiftPend h0.length),
   t0 ++ s.trace.map (shiftEv h0.length)⟩

/-- A second `work` call on the same arguments, issued sequentially after the
first run: the machine continues from everything the first run left behind
(its heap of dead invocation records, plus any still-unfinished stack or
queue — empty when the first run has drained), with a fresh trace so the two
runs' events can be compared. -/
def secondRun (T : String → Bool) (fuel : Nat) (node : String) (obj : JObj) : St :=
  let r1 := workRun T fuel node obj
  runM T fuel ⟨r1.heap, r1.stack ++ [.spawnWork node obj .ctop], r1.queue, []⟩

/-- Scenario for the phase-failure claims: a desired object with a General
field (`backlog`) and an Enable field (`adminStatus: 1`). -/
def failObj : JObj := [("backlog", .vnum 5), ("adminStatus", .vnum 1)]

/-- Transport for the phase-failure scenario: the PUT for `backlog` receives
a non-200 response, everything else succeeds. -/
def failT : String → Bool := fun p => !(p = "/b/backlog")

/-- Transport that always answers 200. -/
def okT : String → Bool := fun _ => true

/-- Scenario for the phase-barrier claim: a name, a subtree and an
admin-enable field together. -/
def raceObj : JObj :=
  [("name", .vstr "svc1"), ("serviceHttp", .vobj [("maxInFlight", .vnum 2)]),
   ("adminStatus", .vnum 1)]

/-- The worked recursion example from the claims:
`{name: "svc1", serviceHttp: {maxInFlight: 2}}`. -/
def recObj : JObj :=
  [("name", .vstr "svc1"), ("serviceHttp", .vobj [("maxInFlight", .vnum 2)])]

/-- A response body whose single top-level key carries
`httpResponseCode: 200`: the existence GET found the VIP. -/
def existsBody : JVal := .vobj [("vip01", .vobj [("httpResponseCode", .vnum 200)])]

/-- A response body whose single top-level key carries
`httpResponseCode: 404`: the API-level not-found marker. -/
def notFoundBody : JVal := .vobj [("vip01", .vobj [("httpResponseCode", .vnum 404)])]

/-- The `create_vip` input used by the orchestrator scenarios. -/
def vipData : JObj := [("name", .vstr "v"), ("backlog", .vnum 5)]

/-- The writes the orchestrator issues for `vipData` when it proceeds to
create: the Naming PUT then the General PUT, under the configuration root. -/
def vipDataPuts : List (String × String) :=
  [("/config/app/proxy/virtualIP/v", "string"),
   ("/config/app/proxy/virtualIP/v/backlog", "uint32")]

/-- Every PUT event addresses the working child path: either the child path
itself (the Naming write) or a path strictly below it.  Non-PUT events are
unconstrained. -/
def putUnder (final : String) : Ev → Prop
  | .evPut p _ => p = final ∨ ∃ r, p = final ++ "/" ++ r
  | _ => True

/-- Well-formedness of a pending synchronous task once the outermost
invocation's Naming iteration (if any) has run: every referenced invocation
id is allocated; recursive spawns target a path below the working child path
with the subtree continuation; no Naming-slot item of the outermost
invocation is still pending (its `node` mutation already happened); and a
slot-0 restart of the outermost invocation can only dispatch an empty Naming
slot. -/
def taskWF (final : String) (hp : List WInv) : WTask → Prop
  | .spawnWork nd _ par => par = .csub ∧ ∃ r, nd = final ++ "/" ++ r
  | .startSlot i =>
      i < hp.length ∧ (i = 0 → (getInv hp 0).slot = 0 → (getInv hp 0).ts.s0 = [])
  | .dispatchItem i sl _ _ => i < hp.length ∧ ¬(i = 0 ∧ sl = 0)
  | .putNull i _ => i < hp.length
  | .cbEach i _ _ => i < hp.length

/-- The path invariant of a running `work` machine whose outermost invocation
has working path `final`: the outermost record keeps node `final` forever,
every nested invocation's node lies strictly below `final`, all pending tasks
are well-formed, all in-flight PUTs reference allocated invocations, and
every PUT event so far addressed `final` or a path below it. -/
def pathInv (final : String) (s : St) : Prop :=
  s.heap ≠ [] ∧
  (getInv s.heap 0).node = final ∧
  (∀ j, 1 ≤ j → j < s.heap.length → ∃ r, (getInv s.heap j).node = final ++ "/" ++ r) ∧
  (∀ t ∈ s.stack, taskWF final s.heap t) ∧
  (∀ p ∈ s.queue, p.inv < s.heap.length) ∧
  (∀ e ∈ s.trace, putUnder final e)

/-- Unrolling lemma for the partition loop: folding from any accumulator
appends each field to the slot its guards select. -/
theorem partition_foldl (obj : JObj) : ∀ ts : Slots,
    obj.foldl partitionStep ts =
      ⟨ts.s0 ++ slot0Spec obj, ts.s1 ++ slot1Spec obj, ts.s2 ++ slot2Spec obj,
       ts.s3 ++ slot3Spec obj, ts.s4 ++ slot4Spec obj⟩ := by
  induction obj with
  | nil =>
      intro ts
      simp [slot0Spec, slot1Spec, slot2Spec, slot3Spec, slot4Spec]
  | cons kv t ih =>
      intro ts
      obtain ⟨k, v⟩ := kv
      rw [List.foldl_cons, ih]
      by_cases hk : k = "name"
      · subst hk
        simp [partitionStep, slot0Spec, slot1Spec, slot2Spec, slot3Spec, slot4Spec,
              List.filterMap_cons]
      · by_cases ha : k = "adminStatus"
        · subst ha
          by_cases h0 : jeqNum v 0
          · have h1 : jeqNum v 1 = false := by
              cases v <;> simp_all [jeqNum]
            simp [partitionStep, slot0Spec, slot1Spec, slot2Spec, slot3Spec, slot4Spec,
                  List.filterMap_cons, h0, h1]
          · by_cases h1 : jeqNum v 1
            · simp [partitionStep, slot0Spec, slot1Spec, slot2Spec, slot3Spec, slot4Spec,
                    List.filterMap_cons, h0, h1]
            · simp [partitionStep, slot0Spec, slot1Spec, slot2Spec, slot3Spec, slot4Spec,
                    List.filterMap_cons, h0, h1]
        · by_cases hs : k = "serviceHttp"
          · subst hs
            simp [partitionStep, slot0Spec, slot1Spec, slot2Spec, slot3Spec, slot4Spec,
                  List.filterMap_cons, ha]
          · simp [partitionStep, slot0Spec, slot1Spec, slot2Spec, slot3Spec, slot4Spec,
                  List.filterMap_cons, hk, ha, hs]

/-- The Naming slot of the partition, characterised. -/
theorem partition_s0 (obj : JObj) : (partitionTasks obj).s0 = slot0Spec obj := by
  have h := partition_foldl obj emptySlots
  rw [partitionTasks, h]
  simp [emptySlots]

/-- C3 counterexample: a known admin-status field carrying the literal value 2
is *not* assigned to the General phase — it is assigned to no phase at all.
For the desired object `{adminStatus: 2}`, every one of the five task slots
built by `work` is empty, so the field is left unscheduled, contradicting the
claim that such a field goes to General and that no field is left
unscheduled. -/
theorem adminStatus_two_assigned_nowhere :
    (partitionTasks [("adminStatus", JVal.vnum 2)]).s0 = [] ∧
    (partitionTasks [("adminStatus", JVal.vnum 2)]).s1 = [] ∧
    (partitionTasks [("adminStatus", JVal.vnum 2)]).s2 = [] ∧
    (partitionTasks [("adminStatus", JVal.vnum 2)]).s3 = [] ∧
    (partitionTasks [("adminStatus", JVal.vnum 2)]).s4 = [] :=
  ⟨rfl, rfl, rfl, rfl, rfl⟩

/-- C3 (amended): the phase assignment of `work`, characterised exactly.  A
field named `name` goes to the Naming slot; a known admin-status field with
value 0 goes to Disable and with value 1 to Enable, while a known
admin-status field with any other value is assigned to *no* phase (silently
dropped); a known subtree-bearing field (`serviceHttp`) goes to Subtree; and
every other field goes to General.  So a field can be left unscheduled:
exactly the `adminStatus` fields whose value is neither 0 nor 1. -/
theorem partition_phase_assignment (obj : JObj) :
    (partitionTasks obj).s0 = slot0Spec obj ∧
    (partitionTasks obj).s1 = slot1Spec obj ∧
    (partitionTasks obj).s2 = slot2Spec obj ∧
    (partitionTasks obj).s3 = slot3Spec obj ∧
    (partitionTasks obj).s4 = slot4Spec obj := by
  have h := partition_foldl obj emptySlots
  rw [partitionTasks, h]
  simp [emptySlots]

/-- C7: type inference is a total, pure function on field names with no
failure mode.  `inferType("adminStatus") = uint32`,
`inferType("keepAliveTimeout") = double`, `inferType("unknownField") =
string`, and every field name outside the explicit `switch` cases maps to
`string`. -/
theorem get_type_total_with_defaults :
    get_type "adminStatus" = "uint32" ∧
    get_type "keepAliveTimeout" = "double" ∧
    get_type "unknownField" = "string" ∧
    ∀ k : String, k ∉ knownTypeKeys → get_type k = "string" := by
  refine ⟨rfl, rfl, rfl, ?_⟩
  intro k hk
  simp [knownTypeKeys] at hk
  obtain ⟨h1, h2, h3, h4, h5, h6, h7, h8, h9, h10, h11⟩ := hk
  simp [get_type, h1, h2, h3, h4, h5, h6, h7, h8, h9, h10, h11]

/-- Witness for C7 at concrete inputs: the default branch applies to a field
name outside the table. -/
theorem get_type_total_with_defaults_witness :
    get_type "sslProfile" = "string" :=
  get_type_total_with_defaults.2.2.2 "sslProfile" (by decide)

/-- C1: the scheduler does *not* stop after a failed phase and does *not*
return the failure.  With the General-phase PUT for `backlog` failing, the
full trace shows: the failure is `console.log`-ged (`evLog`), the Enable
phase is still scheduled (the PUT for `adminStatus` is dispatched and
completes), and the invocation still ends with `cb()` carrying no error
(`evWorkDone 0` — `work`, line 798–804, logs and then calls `cb()`
unconditionally).  The first failure is printed and ignored, not returned. -/
theorem work_swallows_phase_failure :
    (workRun failT 30 "/b" failObj).trace =
      [.evWorkStart 0 "/b", .evPut "/b/backlog" "uint32",
       .evComplete "/b/backlog" false, .evLog badResponseMsg,
       .evPut "/b/adminStatus" "uint32", .evComplete "/b/adminStatus" true,
       .evWorkDone 0] ∧
    doneB (workRun failT 30 "/b" failObj) = true := by
  constructor <;> rfl

/-- C4: the Enable phase begins before the Subtree phase's recursive
sub-invocation has completed.  In the trace of
`{name, serviceHttp: {…}, adminStatus: 1}` against an always-succeeding
transport, the Enable PUT (`…/adminStatus`) is dispatched at position 6,
*before* the recursive invocation's own PUT completes (position 7) and
before the recursive invocation finishes (position 8): the Subtree slot
"completes" via the synchronous failure of the fallen-through
`put(null, …)`, never awaiting the recursion, so phase N starts while phase
N−1 work is still in flight. -/
theorem enable_phase_races_subtree_recursion :
    (workRun okT 40 "/b" raceObj).trace =
      [.evWorkStart 0 "/b", .evPut "/b/svc1" "string", .evComplete "/b/svc1" true,
       .evWorkStart 1 "/b/svc1/serviceHttp",
       .evPut "/b/svc1/serviceHttp/maxInFlight" "uint32", .evLog nodeErrMsg,
       .evPut "/b/svc1/adminStatus" "uint32",
       .evComplete "/b/svc1/serviceHttp/maxInFlight" true, .evWorkDone 1,
       .evComplete "/b/svc1/adminStatus" true, .evWorkDone 0] ∧
    Ev.evPut "/b/svc1/adminStatus" "uint32" ∈ (workRun okT 40 "/b" raceObj).trace.take 7 ∧
    Ev.evWorkDone 1 ∉ (workRun okT 40 "/b" raceObj).trace.take 7 ∧
    Ev.evComplete "/b/svc1/serviceHttp/maxInFlight" true
      ∉ (workRun okT 40 "/b" raceObj).trace.take 7 ∧
    doneB (workRun okT 40 "/b" raceObj) = true := by
  refine ⟨rfl, ?_, ?_, ?_, rfl⟩ <;> decide

/-- C5: a subtree-valued field is applied solely by a recursive `work`
invocation against the derived child path, never by a scalar transport write
for the field itself.  First conjunct (general): the Subtree-slot iteratee
only (i) enters a recursive `work` at `node + '/' + leaf` and (ii) falls
through to `put` with a `null` node, which fails `check_node` synchronously
and dispatches nothing.  Remaining conjuncts: for
`{name: "svc1", serviceHttp: {maxInFlight: 2}}` the dispatched writes are
exactly `…/svc1` (the name) and `…/svc1/serviceHttp/maxInFlight` typed
`uint32`, and a recursive invocation is entered at `…/svc1/serviceHttp`. -/
theorem subtree_field_recursion_no_scalar_write :
    (∀ (s : St) (i : Nat) (leaf : String) (v : JVal),
      execTask (.dispatchItem i 3 leaf v) s =
        { s with stack := .spawnWork ((getInv s.heap i).node ++ "/" ++ leaf) (objFields v) .csub
                            :: .putNull i 3 :: s.stack } ∧
      execTask (.putNull i 3) s =
        { s with stack := .cbEach i 3 (some nodeErrMsg) :: s.stack }) ∧
    putsOf (workRun okT 40 "/b" recObj).trace =
      [("/b/svc1", "string"), ("/b/svc1/serviceHttp/maxInFlight", "uint32")] ∧
    Ev.evWorkStart 1 "/b/svc1/serviceHttp" ∈ (workRun okT 40 "/b" recObj).trace ∧
    doneB (workRun okT 40 "/b" recObj) = true := by
  refine ⟨fun s i leaf v => ⟨rfl, rfl⟩, rfl, ?_, rfl⟩
  decide

/-- C2: `create_vip` does *not* always invoke its callback.  When the
existence GET returns 200 with a body marking the VIP as present, the first
series task errs with `'vip already exists!'`, and the series final callback
(line 918–926) only does `console.log(err); return;` — the caller's callback
is never invoked, so this outcome leaves the caller without any result
(`noCallback`).  No write is issued. -/
theorem create_vip_exists_path_never_calls_back :
    create_vip [("name", .vstr "vip01")] (.rresp 200 existsBody) okT 40 =
      (.noCallback "vip already exists!", []) := rfl

/-- C8: the validation half holds — an input without a `name` field is
rejected with the validation error before any I/O (first conjunct, for every
input, transport and read outcome).  The already-exists half issues zero
write calls, but the already-exists failure never reaches the caller: the
outcome is `noCallback` (the error is logged and the callback skipped), not a
failure returned to the caller (second conjunct). -/
theorem create_vip_validation_and_exists :
    (∀ (data : JObj) (ro : ReadOutcome) (T : String → Bool) (fuel : Nat),
      jget data "name" = none →
      create_vip data ro T fuel = (.calledBack (some "VIP name required") none, [])) ∧
    (∀ (T : String → Bool) (fuel : Nat),
      create_vip vipData (.rresp 200 existsBody) T fuel =
        (.noCallback "vip already exists!", [])) := by
  constructor
  · intro data ro T fuel h
    simp [create_vip, truthyOpt, h]
  · intro T fuel
    rfl

/-- Witness for C8: both halves applied at concrete inputs. -/
theorem create_vip_validation_and_exists_witness :
    create_vip [("backlog", JVal.vnum 5)] (.rresp 200 existsBody) okT 10 =
      (.calledBack (some "VIP name required") none, []) ∧
    create_vip vipData (.rresp 200 existsBody) okT 10 =
      (.noCallback "vip already exists!", []) :=
  ⟨create_vip_validation_and_exists.1 _ _ _ _ rfl,
   create_vip_validation_and_exists.2 okT 10⟩

/-- C10 counterexample: a transport-level error on the existence read does
*not* make `create_vip` treat the target as absent and proceed to issue
writes.  `get` hits `throw new Error('err')` (line 162–165), the callback
chain dies, no callback of any kind is invoked and zero writes are issued —
contradicting the claim that a transport error proceeds like the other
failed-read cases. -/
theorem create_vip_read_transport_error_throws :
    create_vip vipData .rerr okT 40 = (.threw, []) := rfl

/-- C10 (amended): classification of the existence-read outcomes in
`create_vip`.  A non-200 response (any status, e.g. an authentication
failure or an HTTP-level 404) reaches the check with no `msg`, is treated as
absence, and the writes proceed; a 200 response whose body carries
`httpResponseCode: 404` likewise proceeds; a 200 response with a truthy
result whose `httpResponseCode` is not 404 (including absent) triggers the
already-exists path with zero writes; and a transport-level error throws
inside `get` — neither outcome nor writes, rather than proceeding. -/
theorem create_vip_existence_read_outcomes :
    (∀ (status : Nat) (body : JVal), status ≠ 200 →
      (create_vip vipData (.rresp status body) okT 40).1 =
          .calledBack none (some "vip created") ∧
      putsOf (create_vip vipData (.rresp status body) okT 40).2 = vipDataPuts) ∧
    ((create_vip vipData (.rresp 200 notFoundBody) okT 40).1 =
        .calledBack none (some "vip created") ∧
      putsOf (create_vip vipData (.rresp 200 notFoundBody) okT 40).2 = vipDataPuts) ∧
    (∀ body m : JVal, format_response_get body = some m → falsy m = false →
      (match jprop m "httpResponseCode" with
       | some v => jeqNum v 404
       | none => false) = false →
      create_vip vipData (.rresp 200 body) okT 40 =
        (.noCallback "vip already exists!", [])) ∧
    create_vip vipData .rerr okT 40 = (.threw, []) := by
  refine ⟨?_, ⟨rfl, rfl⟩, ?_, rfl⟩
  · intro status body h
    have hg : getModel (.rresp status body) = .gcb (some badResponseMsg) none := by
      simp [getModel, h]
    constructor <;> · simp only [create_vip, hg]; rfl
  · intro body m h1 h2 h3
    have hg : getModel (.rresp 200 body) = .gcb none (some m) := by
      simp [getModel, h1]
    have hc : existsCheck (some m) = true := by
      simp [existsCheck, truthyOpt, h2, h3]
    simp only [create_vip, hg]
    simp [hc]
    decide

/-- Witness for C10 at concrete read outcomes: a 503 response proceeds to
create, and a 200 response with a truthy body lacking `httpResponseCode`
takes the already-exists path. -/
theorem create_vip_existence_read_outcomes_witness :
    (create_vip vipData (.rresp 503 JVal.vnull) okT 40).1 =
        .calledBack none (some "vip created") ∧
    create_vip vipData (.rresp 200 (.vobj [("x", .vobj [])])) okT 40 =
      (.noCallback "vip already exists!", []) :=
  ⟨(create_vip_existence_read_outcomes.1 503 JVal.vnull (by decide)).1,
   create_vip_existence_read_outcomes.2.2.1 (.vobj [("x", .vobj [])]) (.vobj [])
     rfl rfl rfl⟩

/-- Reading an invocation above `n` dead records reads the same record. -/
theorem getInv_shift (h0 h : List WInv) (i : Nat) :
    getInv (h0 ++ h) (i + h0.length) = getInv h i := by
  induction h0 with
  | nil => rfl
  | cons w t ih =>
      show getInv (w :: (t ++ h)) (i + (t.length + 1)) = getInv h i
      have he : i + (t.length + 1) = (i + t.length) + 1 := rfl
      rw [he]
      simpa [getInv, List.getD_cons_succ] using ih

/-- Updating an invocation above `n` dead records leaves them untouched. -/
theorem updInv_shift (h0 h : List WInv) (i : Nat) (f : WInv → WInv) :
    updInv (h0 ++ h) (i + h0.length) f = h0 ++ updInv h i f := by
  induction h0 with
  | nil => rfl
  | cons w t ih =>
      show updInv (w :: (t ++ h)) ((i + t.length) + 1) f = w :: (t ++ updInv h i f)
      simp [updInv, ih]

/-- Shifting invocation ids changes no PUT event. -/
theorem putsOf_map_shiftEv (n : Nat) (l : List Ev) :
    putsOf (l.map (shiftEv n)) = putsOf l := by
  induction l with
  | nil => rfl
  | cons e t ih =>
      cases e <;> simp [putsOf, shiftEv, List.filterMap_cons] <;> simpa [putsOf] using ih

/-- `putStep` commutes with running above dead records. -/
theorem putStep_shift (h0 : List WInv) (t0 : List Ev) (i ep : Nat) (nd : String)
    (data : JVal) (ty : String) (s : St) :
    putStep (i + h0.length) ep nd data ty (shiftSt h0 t0 s) =
      shiftSt h0 t0 (putStep i ep nd data ty s) := by
  by_cases hf : falsy data <;>
    simp [putStep, hf, shiftSt, shiftTask, shiftPend, shiftEv, List.append_assoc]

/-- One synchronous task behaves identically above dead records and an
earlier trace: the machine never inspects invocations below the shift. -/
theorem execTask_shift (h0 : List WInv) (t0 : List Ev) (t : WTask) (s : St) :
    execTask (shiftTask h0.length t) (shiftSt h0 t0 s) = shiftSt h0 t0 (execTask t s) := by
  cases t with
  | spawnWork nd obj p =>
      simp [execTask, shiftTask, shiftSt, shiftEv, List.length_append, Nat.add_comm,
            List.append_assoc]
  | startSlot i =>
      simp only [shiftTask, execTask]
      rw [show (shiftSt h0 t0 s).heap = h0 ++ s.heap from rfl, getInv_shift]
      by_cases h5 : (getInv s.heap i).slot >= 5
      · simp [h5, shiftSt, shiftEv, List.append_assoc]
      · simp only [if_neg h5]
        cases hit : slotGet (getInv s.heap i).ts (getInv s.heap i).slot with
        | nil =>
            simp [hit, shiftSt, shiftTask, updInv_shift, List.append_assoc]
        | cons a l =>
            simp [hit, shiftSt, shiftTask, updInv_shift, List.map_append, List.map_map,
                  Function.comp, List.append_assoc]
  | dispatchItem i si leaf v =>
      simp only [shiftTask, execTask]
      rw [show (shiftSt h0 t0 s).heap = h0 ++ s.heap from rfl, getInv_shift]
      by_cases hc : si = 0 /\ leaf = "name"
      · rw [if_pos hc, if_pos hc]
        by_cases hf : falsy v <;>
          simp [putStep, hf, shiftSt, shiftTask, shiftPend, shiftEv, updInv_shift,
                List.append_assoc]
      · rw [if_neg hc, if_neg hc]
        by_cases h3 : si = 3
        · simp [h3, shiftSt, shiftTask]
        · simp only [if_neg h3]
          by_cases hf : falsy v <;>
            simp [putStep, hf, shiftSt, shiftTask, shiftPend, shiftEv, List.append_assoc]
  | putNull i si =>
      simp [execTask, shiftTask, shiftSt]
  | cbEach i si err =>
      simp only [shiftTask, execTask]
      rw [show (shiftSt h0 t0 s).heap = h0 ++ s.heap from rfl, getInv_shift]
      by_cases hne : (getInv s.heap i).slot = si
      · simp only [hne, ne_eq, not_true_eq_false, if_false, ite_false]
        cases err with
        | some e =>
            simp [shiftSt, shiftTask, updInv_shift, shiftEv, List.append_assoc]
        | none =>
            by_cases ho : (getInv s.heap i).outstanding <= 1 <;>
              simp [ho, shiftSt, shiftTask, updInv_shift]
      · simp [hne, shiftSt]

/-- One machine step commutes with running above dead records. -/
theorem step_shift (T : String → Bool) (h0 : List WInv) (t0 : List Ev) (s : St) :
    step T (shiftSt h0 t0 s) = (step T s).map (shiftSt h0 t0) := by
  obtain ⟨heap, stack, queue, trace⟩ := s
  cases stack with
  | cons t r =>
      have h := execTask_shift h0 t0 t ⟨heap, r, queue, trace⟩
      simpa [step, shiftSt] using h
  | nil =>
      cases queue with
      | nil => simp [step, shiftSt]
      | cons p q =>
          by_cases hp : T p.path <;>
            simp [step, shiftSt, shiftPend, shiftTask, shiftEv, hp, List.append_assoc]

/-- A whole run commutes with running above dead records. -/
theorem runM_shift (T : String → Bool) (h0 : List WInv) (t0 : List Ev) :
    ∀ (fuel : Nat) (s : St),
      runM T fuel (shiftSt h0 t0 s) = shiftSt h0 t0 (runM T fuel s) := by
  intro fuel
  induction fuel with
  | zero => intro s; rfl
  | succ f ih =>
      intro s
      rw [runM, runM, step_shift]
      cases hstep : step T s with
      | none => rfl
      | some s2 => simpa using ih s2

/-- C9: applying the same desired object twice produces the same sequence of
(path, wire type) pairs.  The second `work` call starts on everything the
first run left behind — in the source the two calls share only the
`Linerate` instance, whose fields `work`/`put` never mutate, and the `node`
variable extended by the Naming iteration is a parameter local to each call —
and, given that the first run drained (`doneB`), it dispatches exactly the
same writes in the same order.  Holds for every transport, in particular an
always-succeeding one. -/
theorem apply_twice_same_write_sequence (T : String → Bool) (fuel : Nat)
    (node : String) (obj : JObj)
    (h : doneB (workRun T fuel node obj) = true) :
    putsOf (secondRun T fuel node obj).trace = putsOf (workRun T fuel node obj).trace := by
  have hs : (workRun T fuel node obj).stack = [] := by
    have := h
    simp [doneB, List.isEmpty_iff] at this
    exact this.1
  have hq : (workRun T fuel node obj).queue = [] := by
    have := h
    simp [doneB, List.isEmpty_iff] at this
    exact this.2
  have hinit : (⟨(workRun T fuel node obj).heap, [.spawnWork node obj .ctop], [], []⟩ : St) =
      shiftSt (workRun T fuel node obj).heap [] (initSt node obj) := by
    simp [shiftSt, initSt, shiftTask]
  calc putsOf (secondRun T fuel node obj).trace
      = putsOf (runM T fuel ⟨(workRun T fuel node obj).heap,
          [.spawnWork node obj .ctop], [], []⟩).trace := by
        rw [secondRun]
        rw [hs, hq]
        rfl
    _ = putsOf (shiftSt (workRun T fuel node obj).heap [] (workRun T fuel node obj)).trace := by
        rw [hinit, runM_shift]
        rfl
    _ = putsOf (workRun T fuel node obj).trace := by
        simp [shiftSt, putsOf_map_shiftEv]

/-- Witness for C9: the double application of the recursion example against
an always-succeeding transport repeats its write sequence. -/
theorem apply_twice_same_write_sequence_witness :
    putsOf (secondRun okT 40 "/b" recObj).trace = putsOf (workRun okT 40 "/b" recObj).trace :=
  apply_twice_same_write_sequence okT 40 "/b" recObj (by decide)

/-- Updating preserves the heap length. -/
theorem length_updInv (h : List WInv) (i : Nat) (f : WInv → WInv) :
    (updInv h i f).length = h.length := by
  induction h generalizing i with
  | nil => rfl
  | cons w t ih =>
      cases i with
      | zero => rfl
      | succ n => simp [updInv, ih]

/-- Reading the updated index. -/
theorem getInv_updInv_self (h : List WInv) (i : Nat) (f : WInv → WInv)
    (hi : i < h.length) : getInv (updInv h i f) i = f (getInv h i) := by
  induction h generalizing i with
  | nil => simp at hi
  | cons w t ih =>
      cases i with
      | zero => rfl
      | succ n =>
          simp only [List.length_cons, Nat.succ_lt_succ_iff] at hi
          simpa [updInv, getInv, List.getD_cons_succ] using ih n hi

/-- Reading any other index. -/
theorem getInv_updInv_ne (h : List WInv) (i j : Nat) (f : WInv → WInv)
    (hne : j ≠ i) : getInv (updInv h i f) j = getInv h j := by
  induction h generalizing i j with
  | nil => rfl
  | cons w t ih =>
      cases i with
      | zero =>
          cases j with
          | zero => exact absurd rfl hne
          | succ m => rfl
      | succ n =>
          cases j with
          | zero => rfl
          | succ m =>
              simpa [updInv, getInv, List.getD_cons_succ] using
                ih n m (fun hc => hne (by omega))

/-- Reading below an appended suffix. -/
theorem getInv_append_left (h l : List WInv) (j : Nat) (hj : j < h.length) :
    getInv (h ++ l) j = getInv h j := by
  induction h generalizing j with
  | nil => simp at hj
  | cons w t ih =>
      cases j with
      | zero => rfl
      | succ m =>
          simp only [List.length_cons, Nat.succ_lt_succ_iff] at hj
          simpa [getInv, List.getD_cons_succ] using ih m hj

/-- Reading the first appended record. -/
theorem getInv_append_self (h : List WInv) (w : WInv) :
    getInv (h ++ [w]) h.length = w := by
  induction h with
  | nil => rfl
  | cons a t ih =>
      show getInv (a :: (t ++ [w])) (t.length + 1) = w
      rw [show getInv (a :: (t ++ [w])) (t.length + 1) = getInv (t ++ [w]) t.length from rfl]
      exact ih

/-- `putStep` only ever appends to the trace. -/
theorem putStep_trace_mono (i ep : Nat) (nd : String) (data : JVal) (ty : String)
    (s : St) : ∃ d, (putStep i ep nd data ty s).trace = s.trace ++ d := by
  by_cases hf : falsy data
  · exact ⟨[], by simp [putStep, hf]⟩
  · exact ⟨[.evPut nd ty], by simp [putStep, hf]⟩

/-- A synchronous task only ever appends to the trace. -/
theorem execTask_trace_mono (t : WTask) (s : St) :
    ∃ d, (execTask t s).trace = s.trace ++ d := by
  cases t with
  | spawnWork nd obj p => exact ⟨_, rfl⟩
  | startSlot i =>
      by_cases h5 : (getInv s.heap i).slot ≥ 5
      · exact ⟨[.evWorkDone i], by simp [execTask, h5]⟩
      · cases hit : slotGet (getInv s.heap i).ts (getInv s.heap i).slot with
        | nil => exact ⟨[], by simp [execTask, h5, hit]⟩
        | cons a l => exact ⟨[], by simp [execTask, h5, hit]⟩
  | dispatchItem i si leaf v =>
      by_cases hc : si = 0 ∧ leaf = "name"
      · simpa [execTask, hc] using putStep_trace_mono i si _ v (get_type "name") _
      · by_cases h3 : si = 3
        · exact ⟨[], by simp [execTask, hc, h3]⟩
        · simpa [execTask, hc, h3] using putStep_trace_mono i si _ v (get_type leaf) s
  | putNull i si => exact ⟨[], by simp [execTask]⟩
  | cbEach i si err =>
      by_cases hne : (getInv s.heap i).slot = si
      · cases err with
        | some e => exact ⟨[.evLog e], by simp [execTask, hne]⟩
        | none =>
            by_cases ho : (getInv s.heap i).outstanding ≤ 1
            · exact ⟨[], by simp [execTask, hne, ho]⟩
            · exact ⟨[], by simp [execTask, hne, ho]⟩
      · exact ⟨[], by simp [execTask, hne]⟩

/-- A machine step only ever appends to the trace. -/
theorem step_trace_mono (T : String → Bool) (s s2 : St) (h : step T s = some s2) :
    ∃ d, s2.trace = s.trace ++ d := by
  obtain ⟨heap, stack, queue, trace⟩ := s
  cases stack with
  | cons t r =>
      have := execTask_trace_mono t ⟨heap, r, queue, trace⟩
      simp [step] at h
      rw [← h]
      simpa using this
  | nil =>
      cases queue with
      | nil => simp [step] at h
      | cons p q =>
          simp [step] at h
          rw [← h]
          exact ⟨_, rfl⟩

/-- A run only ever appends to the trace. -/
theorem runM_trace_mono (T : String → Bool) :
    ∀ (fuel : Nat) (s : St), ∃ d, (runM T fuel s).trace = s.trace ++ d := by
  intro fuel
  induction fuel with
  | zero => exact fun s => ⟨[], by simp [runM]⟩
  | succ f ih =>
      intro s
      rw [runM]
      cases hstep : step T s with
      | none => exact ⟨[], by simp⟩
      | some s2 =>
          obtain ⟨d1, hd1⟩ := step_trace_mono T s s2 hstep
          obtain ⟨d2, hd2⟩ := ih s2
          exact ⟨d1 ++ d2, by simp [hd2, hd1, List.append_assoc]⟩

/-- Without a `name` key among the fields, the Naming slot is empty. -/
theorem slot0Spec_nil_of_not_mem (obj : JObj) (h : "name" ∉ obj.map Prod.fst) :
    slot0Spec obj = [] := by
  induction obj with
  | nil => rfl
  | cons kv t ih =>
      simp only [List.map_cons, List.mem_cons, not_or] at h
      have hk : ¬kv.1 = "name" := fun hc => h.1 hc.symm
      simp only [slot0Spec, List.filterMap_cons, if_neg hk]
      exact ih h.2

/-- With unique keys, a present `name` field makes the Naming slot exactly
that single item. -/
theorem slot0Spec_of_jget_some (obj : JObj) (v : JVal)
    (hv : jget obj "name" = some v) (hnd : (obj.map Prod.fst).Nodup) :
    slot0Spec obj = [("name", v)] := by
  induction obj with
  | nil => simp [jget] at hv
  | cons kv t ih =>
      obtain ⟨k, w⟩ := kv
      rw [List.map_cons, List.nodup_cons] at hnd
      by_cases hk : k = "name"
      · subst hk
        have hv2 : w = v := by simpa [jget, List.find?_cons] using hv
        subst hv2
        have ht : slot0Spec t = [] := slot0Spec_nil_of_not_mem t (by simpa using hnd.1)
        simp only [slot0Spec] at ht ⊢
        simp [List.filterMap_cons, ht]
      · have hv2 : jget t "name" = some v := by
          simpa [jget, List.find?_cons, hk] using hv
        simp only [slot0Spec, List.filterMap_cons, if_neg hk]
        exact ih hv2 hnd.2

/-- An absent `name` key makes the Naming slot empty. -/
theorem slot0Spec_of_jget_none (obj : JObj) (h : jget obj "name" = none) :
    slot0Spec obj = [] := by
  induction obj with
  | nil => rfl
  | cons kv t ih =>
      by_cases hk : kv.1 = "name"
      · exfalso
        simp [jget, List.find?_cons, hk] at h
      · simp only [slot0Spec, List.filterMap_cons, if_neg hk]
        exact ih (by simpa [jget, List.find?_cons, hk] using h)

/-- Updating never empties the heap. -/
theorem updInv_ne_nil (h : List WInv) (i : Nat) (f : WInv → WInv) (hne : h ≠ []) :
    updInv h i f ≠ [] := by
  cases h with
  | nil => exact absurd rfl hne
  | cons w t => cases i <;> simp [updInv]

/-- Task well-formedness survives allocating a fresh invocation record. -/
theorem taskWF_append (final : String) (heap : List WInv) (w : WInv)
    (hne : heap ≠ []) (u : WTask) (h : taskWF final heap u) :
    taskWF final (heap ++ [w]) u := by
  have hlen : heap.length < (heap ++ [w]).length := by simp
  have h0 : getInv (heap ++ [w]) 0 = getInv heap 0 :=
    getInv_append_left heap [w] 0 (List.length_pos.mpr hne)
  cases u with
  | spawnWork nd obj p => exact h
  | startSlot i =>
      obtain ⟨h1, h2⟩ := h
      exact ⟨Nat.lt_trans h1 hlen, fun hi0 hs0 => by
        rw [h0]
        exact h2 hi0 (by rw [h0] at hs0; exact hs0)⟩
  | dispatchItem i sl l v => exact ⟨Nat.lt_trans h.1 hlen, h.2⟩
  | putNull i sl => exact Nat.lt_trans h hlen
  | cbEach i sl e => exact Nat.lt_trans h hlen

/-- Task well-formedness survives a heap update that cannot reopen the
outermost invocation's Naming slot. -/
theorem taskWF_updInv (final : String) (heap : List WInv) (i : Nat) (f : WInv → WInv)
    (hinv0 : (getInv (updInv heap i f) 0).slot = 0 →
      (getInv heap 0).slot = 0 ∧
      (getInv (updInv heap i f) 0).ts.s0 = (getInv heap 0).ts.s0)
    (u : WTask) (h : taskWF final heap u) : taskWF final (updInv heap i f) u := by
  cases u with
  | spawnWork nd obj p => exact h
  | startSlot j =>
      obtain ⟨h1, h2⟩ := h
      refine ⟨by rw [length_updInv]; exact h1, fun hj0 hs0 => ?_⟩
      obtain ⟨ho, hts⟩ := hinv0 hs0
      rw [hts]
      exact h2 hj0 ho
  | dispatchItem j sl l v => exact ⟨by rw [length_updInv]; exact h.1, h.2⟩
  | putNull j sl => exact by rw [taskWF, length_updInv]; exact h
  | cbEach j sl e => exact by rw [taskWF, length_updInv]; exact h

/-- Updating past the end of the heap is a no-op. -/
theorem updInv_oob (h : List WInv) (i : Nat) (f : WInv → WInv)
    (hi : h.length ≤ i) : updInv h i f = h := by
  induction h generalizing i with
  | nil => rfl
  | cons w t ih =>
      cases i with
      | zero => simp at hi
      | succ n =>
          simp only [List.length_cons, Nat.succ_le_succ_iff] at hi
          simp [updInv, ih n hi]

/-- A node-preserving update changes no invocation's node. -/
theorem getInv_node_updInv (heap : List WInv) (i : Nat) (f : WInv → WInv)
    (hf : ∀ w, (f w).node = w.node) (j : Nat) :
    (getInv (updInv heap i f) j).node = (getInv heap j).node := by
  by_cases hji : j = i
  · subst hji
    by_cases hj : j < heap.length
    · rw [getInv_updInv_self heap j f hj, hf]
    · rw [updInv_oob heap j f (by omega)]
  · rw [getInv_updInv_ne heap i j f hji]

/-- A ts-preserving update changes no invocation's task slots. -/
theorem getInv_ts_updInv (heap : List WInv) (i : Nat) (f : WInv → WInv)
    (hf : ∀ w, (f w).ts = w.ts) (j : Nat) :
    (getInv (updInv heap i f) j).ts = (getInv heap j).ts := by
  by_cases hji : j = i
  · subst hji
    by_cases hj : j < heap.length
    · rw [getInv_updInv_self heap j f hj, hf]
    · rw [updInv_oob heap j f (by omega)]
  · rw [getInv_updInv_ne heap i j f hji]


/-- Executing any well-formed synchronous task preserves the path invariant. -/
theorem execTask_preserves_pathInv (final : String) (t : WTask) (heap : List WInv)
    (rest : List WTask) (queue : List Pend) (trace : List Ev)
    (hne : heap ≠ [])
    (h0 : (getInv heap 0).node = final)
    (hsub : ∀ j, 1 ≤ j → j < heap.length → ∃ r, (getInv heap j).node = final ++ "/" ++ r)
    (ht : taskWF final heap t)
    (hstk : ∀ u ∈ rest, taskWF final heap u)
    (hq : ∀ p ∈ queue, p.inv < heap.length)
    (htr : ∀ e ∈ trace, putUnder final e) :
    pathInv final (execTask t ⟨heap, rest, queue, trace⟩) := by
  have hlen0 : 0 < heap.length := List.length_pos.mpr hne
  cases t with
  | spawnWork nd obj par =>
      obtain ⟨hpar, r0, hnd⟩ := ht
      simp only [execTask]
      unfold pathInv
      refine ⟨by simp, ?_, ?_, ?_, ?_, ?_⟩
      · rw [getInv_append_left heap _ 0 hlen0]
        exact h0
      · intro j hj1 hjlen
        simp only [List.length_append, List.length_cons, List.length_nil] at hjlen
        by_cases hjh : j < heap.length
        · rw [getInv_append_left heap _ j hjh]
          exact hsub j hj1 hjh
        · have hj : j = heap.length := by omega
          subst hj
          rw [getInv_append_self]
          exact ⟨r0, hnd⟩
      · intro u hu
        simp only [List.mem_cons] at hu
        rcases hu with h | h
        · subst h
          refine ⟨by simp, fun hi0 _ => ?_⟩
          exact absurd hi0 (by omega)
        · exact taskWF_append final heap _ hne u (hstk u h)
      · intro p hp
        have := hq p hp
        simp only [List.length_append]
        omega
      · intro e he
        rcases List.mem_append.mp he with h | h
        · exact htr e h
        · rw [List.mem_singleton] at h
          subst h
          simp [putUnder]
  | startSlot i =>
      obtain ⟨hi, hcond⟩ := ht
      by_cases h5 : (getInv heap i).slot ≥ 5
      · simp only [execTask, if_pos h5]
        unfold pathInv
        refine ⟨hne, h0, hsub, hstk, hq, ?_⟩
        intro e he
        rcases List.mem_append.mp he with h | h
        · exact htr e h
        · rw [List.mem_singleton] at h
          subst h
          simp [putUnder]
      · simp only [execTask, if_neg h5]
        cases hit : slotGet (getInv heap i).ts (getInv heap i).slot with
        | nil =>
            unfold pathInv
            have hfn : ∀ w : WInv, ({ w with slot := w.slot + 1 } : WInv).node = w.node :=
              fun w => rfl
            refine ⟨updInv_ne_nil _ _ _ hne, ?_, ?_, ?_, ?_, htr⟩
            · rw [getInv_node_updInv _ _ _ hfn]
              exact h0
            · intro j hj1 hjlen
              rw [length_updInv] at hjlen
              rw [getInv_node_updInv _ _ _ hfn]
              exact hsub j hj1 hjlen
            · intro u hu
              simp only [List.mem_cons] at hu
              rcases hu with h | h
              · subst h
                refine ⟨by rw [length_updInv]; exact hi, fun hi0 hs0 => ?_⟩
                subst hi0
                rw [getInv_updInv_self heap 0 _ hlen0] at hs0
                exact absurd hs0 (by simp)
              · refine taskWF_updInv final heap i _ ?_ u (hstk u h)
                intro hs0
                by_cases hi0 : i = 0
                · subst hi0
                  rw [getInv_updInv_self heap 0 _ hlen0] at hs0
                  exact absurd hs0 (by simp)
                · rw [getInv_updInv_ne heap i 0 _ (fun hc => hi0 hc.symm)] at hs0 ⊢
                  exact ⟨hs0, rfl⟩
            · intro p hp
              rw [length_updInv]
              exact hq p hp
        | cons a l =>
            unfold pathInv
            have hfn : ∀ w : WInv,
                ({ w with outstanding := (a :: l).length } : WInv).node = w.node :=
              fun w => rfl
            have hnotzero : ¬(i = 0 ∧ (getInv heap i).slot = 0) := by
              rintro ⟨hi0, hs0⟩
              subst hi0
              rw [hs0] at hit
              rw [show slotGet (getInv heap 0).ts 0 = (getInv heap 0).ts.s0 from rfl,
                  hcond rfl hs0] at hit
              exact List.cons_ne_nil a l hit.symm
            refine ⟨updInv_ne_nil _ _ _ hne, ?_, ?_, ?_, ?_, htr⟩
            · rw [getInv_node_updInv _ _ _ hfn]
              exact h0
            · intro j hj1 hjlen
              rw [length_updInv] at hjlen
              rw [getInv_node_updInv _ _ _ hfn]
              exact hsub j hj1 hjlen
            · intro u hu
              rcases List.mem_append.mp hu with h | h
              · rcases List.mem_map.mp h with ⟨kv, _, hkv⟩
                subst hkv
                exact ⟨by rw [length_updInv]; exact hi, hnotzero⟩
              · refine taskWF_updInv final heap i _ ?_ u (hstk u h)
                intro hs0
                by_cases hi0 : i = 0
                · subst hi0
                  rw [getInv_updInv_self heap 0 _ hlen0] at hs0 ⊢
                  exact ⟨hs0, rfl⟩
                · rw [getInv_updInv_ne heap i 0 _ (fun hc => hi0 hc.symm)] at hs0 ⊢
                  exact ⟨hs0, rfl⟩
            · intro p hp
              rw [length_updInv]
              exact hq p hp
  | dispatchItem i sl leaf v =>
      obtain ⟨hi, hns⟩ := ht
      have hpath : ∀ leaf2 : String,
          ∃ r2, (getInv heap i).node ++ "/" ++ leaf2 = final ++ "/" ++ r2 := by
        intro leaf2
        by_cases hi0 : i = 0
        · subst hi0
          rw [h0]
          exact ⟨leaf2, rfl⟩
        · obtain ⟨r, hr⟩ := hsub i (Nat.one_le_iff_ne_zero.mpr hi0) hi
          exact ⟨r ++ "/" ++ leaf2, by rw [hr]; simp [String.append_assoc]⟩
      by_cases hc : sl = 0 ∧ leaf = "name"
      · have hine : i ≠ 0 := fun hi0 => hns ⟨hi0, hc.1⟩
        obtain ⟨rv, hrv⟩ := hpath (jstr v)
        simp only [execTask, if_pos hc]
        have hnode0 : ∀ f : WInv → WInv,
            (getInv (updInv heap i f) 0).node = (getInv heap 0).node := fun f =>
          congrArg WInv.node (getInv_updInv_ne heap i 0 f (fun hc2 => hine hc2.symm))
        have hnodes : ∀ j, 1 ≤ j → j < heap.length →
            ∃ r2, (getInv (updInv heap i
              (fun w => { w with node := (getInv heap i).node ++ "/" ++ jstr v })) j).node =
                final ++ "/" ++ r2 := by
          intro j hj1 hjlen
          by_cases hji : j = i
          · subst hji
            rw [getInv_updInv_self heap j _ hjlen]
            exact ⟨rv, hrv⟩
          · rw [getInv_updInv_ne heap i j _ hji]
            exact hsub j hj1 hjlen
        have htw : ∀ u ∈ rest, taskWF final (updInv heap i
            (fun w => { w with node := (getInv heap i).node ++ "/" ++ jstr v })) u := by
          intro u hu
          refine taskWF_updInv final heap i _ ?_ u (hstk u hu)
          intro hs0
          rw [getInv_updInv_ne heap i 0 _ (fun hc2 => hine hc2.symm)] at hs0 ⊢
          exact ⟨hs0, rfl⟩
        by_cases hfv : falsy v
        · simp only [putStep, if_pos hfv]
          unfold pathInv
          refine ⟨updInv_ne_nil _ _ _ hne, by rw [hnode0]; exact h0, ?_, ?_, ?_, htr⟩
          · intro j hj1 hjlen
            rw [length_updInv] at hjlen
            exact hnodes j hj1 hjlen
          · intro u hu
            simp only [List.mem_cons] at hu
            rcases hu with h | h
            · subst h
              rw [taskWF, length_updInv]
              exact hi
            · exact htw u h
          · intro p hp
            rw [length_updInv]
            exact hq p hp
        · simp only [putStep, if_neg hfv]
          unfold pathInv
          refine ⟨updInv_ne_nil _ _ _ hne, by rw [hnode0]; exact h0, ?_, htw, ?_, ?_⟩
          · intro j hj1 hjlen
            rw [length_updInv] at hjlen
            exact hnodes j hj1 hjlen
          · intro p hp
            rcases List.mem_append.mp hp with h | h
            · rw [length_updInv]
              exact hq p h
            · rw [List.mem_singleton] at h
              subst h
              rw [length_updInv]
              exact hi
          · intro e he
            rcases List.mem_append.mp he with h | h
            · exact htr e h
            · rw [List.mem_singleton] at h
              subst h
              exact Or.inr ⟨rv, hrv⟩
      · simp only [execTask, if_neg hc]
        by_cases h3 : sl = 3
        · simp only [if_pos h3]
          unfold pathInv
          refine ⟨hne, h0, hsub, ?_, hq, htr⟩
          intro u hu
          simp only [List.mem_cons] at hu
          rcases hu with h | h
          · subst h
            exact ⟨rfl, hpath leaf⟩
          · rcases h with h | h
            · subst h
              exact hi
            · exact hstk u h
        · simp only [if_neg h3]
          by_cases hfv : falsy v
          · simp only [putStep, if_pos hfv]
            unfold pathInv
            refine ⟨hne, h0, hsub, ?_, hq, htr⟩
            intro u hu
            simp only [List.mem_cons] at hu
            rcases hu with h | h
            · subst h
              exact hi
            · exact hstk u h
          · simp only [putStep, if_neg hfv]
            unfold pathInv
            refine ⟨hne, h0, hsub, hstk, ?_, ?_⟩
            · intro p hp
              rcases List.mem_append.mp hp with h | h
              · exact hq p h
              · rw [List.mem_singleton] at h
                subst h
                exact hi
            · intro e he
              rcases List.mem_append.mp he with h | h
              · exact htr e h
              · rw [List.mem_singleton] at h
                subst h
                exact Or.inr (hpath leaf)
  | putNull i sl =>
      simp only [execTask]
      unfold pathInv
      refine ⟨hne, h0, hsub, ?_, hq, htr⟩
      intro u hu
      simp only [List.mem_cons] at hu
      rcases hu with h | h
      · subst h
        exact ht
      · exact hstk u h
  | cbEach i sl err =>
      by_cases hsl : (getInv heap i).slot ≠ sl
      · simp only [execTask, if_pos hsl]
        exact ⟨hne, h0, hsub, hstk, hq, htr⟩
      · simp only [execTask, if_neg hsl]
        cases err with
        | some e =>
            unfold pathInv
            have hfn : ∀ w : WInv, ({ w with slot := w.slot + 1 } : WInv).node = w.node :=
              fun w => rfl
            refine ⟨updInv_ne_nil _ _ _ hne, ?_, ?_, ?_, ?_, ?_⟩
            · rw [getInv_node_updInv _ _ _ hfn]
              exact h0
            · intro j hj1 hjlen
              rw [length_updInv] at hjlen
              rw [getInv_node_updInv _ _ _ hfn]
              exact hsub j hj1 hjlen
            · intro u hu
              simp only [List.mem_cons] at hu
              rcases hu with h | h
              · subst h
                refine ⟨by rw [length_updInv]; exact ht, fun hi0 hs0 => ?_⟩
                subst hi0
                rw [getInv_updInv_self heap 0 _ hlen0] at hs0
                exact absurd hs0 (by simp)
              · refine taskWF_updInv final heap i _ ?_ u (hstk u h)
                intro hs0
                by_cases hi0 : i = 0
                · subst hi0
                  rw [getInv_updInv_self heap 0 _ hlen0] at hs0
                  exact absurd hs0 (by simp)
                · rw [getInv_updInv_ne heap i 0 _ (fun hc => hi0 hc.symm)] at hs0 ⊢
                  exact ⟨hs0, rfl⟩
            · intro p hp
              rw [length_updInv]
              exact hq p hp
            · intro e2 he
              rcases List.mem_append.mp he with h | h
              · exact htr e2 h
              · rw [List.mem_singleton] at h
                subst h
                simp [putUnder]
        | none =>
            by_cases ho : (getInv heap i).outstanding ≤ 1
            · simp only [if_pos ho]
              unfold pathInv
              have hfn : ∀ w : WInv,
                  ({ w with outstanding := 0, slot := w.slot + 1 } : WInv).node = w.node :=
                fun w => rfl
              refine ⟨updInv_ne_nil _ _ _ hne, ?_, ?_, ?_, ?_, htr⟩
              · rw [getInv_node_updInv _ _ _ hfn]
                exact h0
              · intro j hj1 hjlen
                rw [length_updInv] at hjlen
                rw [getInv_node_updInv _ _ _ hfn]
                exact hsub j hj1 hjlen
              · intro u hu
                simp only [List.mem_cons] at hu
                rcases hu with h | h
                · subst h
                  refine ⟨by rw [length_updInv]; exact ht, fun hi0 hs0 => ?_⟩
                  subst hi0
                  rw [getInv_updInv_self heap 0 _ hlen0] at hs0
                  exact absurd hs0 (by simp)
                · refine taskWF_updInv final heap i _ ?_ u (hstk u h)
                  intro hs0
                  by_cases hi0 : i = 0
                  · subst hi0
                    rw [getInv_updInv_self heap 0 _ hlen0] at hs0
                    exact absurd hs0 (by simp)
                  · rw [getInv_updInv_ne heap i 0 _ (fun hc => hi0 hc.symm)] at hs0 ⊢
                    exact ⟨hs0, rfl⟩
              · intro p hp
                rw [length_updInv]
                exact hq p hp
            · simp only [if_neg ho]
              unfold pathInv
              have hfn : ∀ w : WInv,
                  ({ w with outstanding := w.outstanding - 1 } : WInv).node = w.node :=
                fun w => rfl
              refine ⟨updInv_ne_nil _ _ _ hne, ?_, ?_, ?_, ?_, htr⟩
              · rw [getInv_node_updInv _ _ _ hfn]
                exact h0
              · intro j hj1 hjlen
                rw [length_updInv] at hjlen
                rw [getInv_node_updInv _ _ _ hfn]
                exact hsub j hj1 hjlen
              · intro u hu
                refine taskWF_updInv final heap i _ ?_ u (hstk u hu)
                intro hs0
                by_cases hi0 : i = 0
                · subst hi0
                  rw [getInv_updInv_self heap 0 _ hlen0] at hs0 ⊢
                  exact ⟨hs0, rfl⟩
                · rw [getInv_updInv_ne heap i 0 _ (fun hc => hi0 hc.symm)] at hs0 ⊢
                  exact ⟨hs0, rfl⟩
              · intro p hp
                rw [length_updInv]
                exact hq p hp

/-- One machine step preserves the path invariant. -/
theorem step_preserves_pathInv (T : String → Bool) (final : String) (s s2 : St)
    (hstep : step T s = some s2) (hJ : pathInv final s) : pathInv final s2 := by
  obtain ⟨heap, stack, queue, trace⟩ := s
  obtain ⟨hne, h0, hsub, hstk, hq, htr⟩ := hJ
  cases stack with
  | cons t r =>
      have h2 : execTask t ⟨heap, r, queue, trace⟩ = s2 := by
        simpa [step] using hstep
      rw [← h2]
      exact execTask_preserves_pathInv final t heap r queue trace hne h0 hsub
        (hstk t (List.mem_cons_self t r)) (fun u hu => hstk u (List.mem_cons_of_mem t hu))
        hq htr
  | nil =>
      cases queue with
      | nil => simp [step] at hstep
      | cons p q =>
          have h2 : (⟨heap, [.cbEach p.inv p.slotIdx
              (if T p.path then none else some badResponseMsg)], q,
              trace ++ [.evComplete p.path (T p.path)]⟩ : St) = s2 := by
            simpa [step] using hstep
          rw [← h2]
          refine ⟨hne, h0, hsub, ?_, ?_, ?_⟩
          · intro u hu
            rw [List.mem_singleton] at hu
            subst hu
            exact hq p (List.mem_cons_self p q)
          · intro p2 hp2
            exact hq p2 (List.mem_cons_of_mem p hp2)
          · intro e he
            rcases List.mem_append.mp he with h | h
            · exact htr e h
            · rw [List.mem_singleton] at h
              subst h
              simp [putUnder]

/-- A whole run preserves the path invariant. -/
theorem runM_preserves_pathInv (T : String → Bool) (final : String) :
    ∀ (fuel : Nat) (s : St), pathInv final s → pathInv final (runM T fuel s) := by
  intro fuel
  induction fuel with
  | zero => exact fun s h => h
  | succ f ih =>
      intro s h
      rw [runM]
      cases hstep : step T s with
      | none => exact h
      | some s2 => exact ih s2 (step_preserves_pathInv T final s s2 hstep h)

/-- Unfold one fueled step of a run. -/
theorem runM_step_eq (T : String → Bool) (f : Nat) (s s2 : St)
    (h : step T s = some s2) : runM T (f + 1) s = runM T f s2 := by
  rw [runM, h]

/-- C6: a `name` field is scheduled in the Naming slot; its write targets the
derived child path `base + '/' + value` itself; and every write of the whole
invocation — later phases and recursive subtree invocations alike — addresses
the child path or a path strictly below it, never a path under the bare
`base`.  Without a `name` field, every write stays at or below the unchanged
`base`.  The fuel bounds only say the run got past `work`'s synchronous
prologue (three machine steps reach the Naming dispatch; one reaches the
partition); any completed run satisfies them.  Unique keys (`Nodup`) reflect
that a JavaScript object cannot carry the same key twice. -/
theorem name_field_extends_base_path (T : String → Bool) (fuel : Nat)
    (base : String) (obj : JObj) :
    (∀ v : JVal, jget obj "name" = some v → (obj.map Prod.fst).Nodup → 3 ≤ fuel →
      ("name", v) ∈ (partitionTasks obj).s0 ∧
      (∀ p ty, Ev.evPut p ty ∈ (workRun T fuel base obj).trace →
        p = base ++ "/" ++ jstr v ∨ ∃ r, p = base ++ "/" ++ jstr v ++ "/" ++ r) ∧
      (falsy v = false →
        Ev.evPut (base ++ "/" ++ jstr v) (get_type "name")
          ∈ (workRun T fuel base obj).trace)) ∧
    (jget obj "name" = none → 1 ≤ fuel →
      ∀ p ty, Ev.evPut p ty ∈ (workRun T fuel base obj).trace →
        p = base ∨ ∃ r, p = base ++ "/" ++ r) := by
  constructor
  · intro v hv hnd hfuel
    have hs0 : (partitionTasks obj).s0 = [("name", v)] := by
      rw [partition_s0 obj]
      exact slot0Spec_of_jget_some obj v hv hnd
    obtain ⟨k, rfl⟩ : ∃ k, fuel = k + 3 := ⟨fuel - 3, by omega⟩
    have e1 : step T (initSt base obj) = some
        ⟨[⟨base, partitionTasks obj, 0, 0, .ctop⟩], [.startSlot 0], [],
         [.evWorkStart 0 base]⟩ := rfl
    have e2 : step T (⟨[⟨base, partitionTasks obj, 0, 0, .ctop⟩], [.startSlot 0], [],
        [.evWorkStart 0 base]⟩ : St) = some
        ⟨[⟨base, partitionTasks obj, 0, 1, .ctop⟩], [.dispatchItem 0 0 "name" v], [],
         [.evWorkStart 0 base]⟩ := by
      have hit : slotGet (partitionTasks obj) 0 = [("name", v)] := hs0
      show some (execTask (.startSlot 0)
        ⟨[⟨base, partitionTasks obj, 0, 0, .ctop⟩], [], [], [.evWorkStart 0 base]⟩) = _
      simp only [execTask]
      rw [show getInv [(⟨base, partitionTasks obj, 0, 0, .ctop⟩ : WInv)] 0 =
            (⟨base, partitionTasks obj, 0, 0, .ctop⟩ : WInv) from rfl]
      rw [show slotGet (partitionTasks obj) ((⟨base, partitionTasks obj, 0, 0,
            .ctop⟩ : WInv)).slot = slotGet (partitionTasks obj) 0 from rfl, hit]
      rfl
    by_cases hfv : falsy v = true
    · -- a falsy name value: `put` rejects the data synchronously, no Naming
      -- write is dispatched, but the node was already extended
      have e3 : step T (⟨[⟨base, partitionTasks obj, 0, 1, .ctop⟩],
          [.dispatchItem 0 0 "name" v], [], [.evWorkStart 0 base]⟩ : St) = some
          ⟨[⟨base ++ "/" ++ jstr v, partitionTasks obj, 0, 1, .ctop⟩],
           [.cbEach 0 0 (some missingDataMsg)], [], [.evWorkStart 0 base]⟩ := by
        show some (execTask (.dispatchItem 0 0 "name" v) _) = _
        simp only [execTask]
        rw [if_pos (by exact ⟨trivial, trivial⟩)]
        simp only [putStep, hfv, if_true]
        rfl
      have hw : workRun T (k + 3) base obj =
          runM T k ⟨[⟨base ++ "/" ++ jstr v, partitionTasks obj, 0, 1, .ctop⟩],
            [.cbEach 0 0 (some missingDataMsg)], [], [.evWorkStart 0 base]⟩ := by
        calc workRun T (k + 3) base obj
            = runM T (k + 2) ⟨[⟨base, partitionTasks obj, 0, 0, .ctop⟩],
                [.startSlot 0], [], [.evWorkStart 0 base]⟩ :=
              runM_step_eq T (k + 2) _ _ e1
          _ = runM T (k + 1) ⟨[⟨base, partitionTasks obj, 0, 1, .ctop⟩],
                [.dispatchItem 0 0 "name" v], [], [.evWorkStart 0 base]⟩ :=
              runM_step_eq T (k + 1) _ _ e2
          _ = _ := runM_step_eq T k _ _ e3
      have hJ3 : pathInv (base ++ "/" ++ jstr v)
          ⟨[⟨base ++ "/" ++ jstr v, partitionTasks obj, 0, 1, .ctop⟩],
           [.cbEach 0 0 (some missingDataMsg)], [], [.evWorkStart 0 base]⟩ := by
        refine ⟨by simp, rfl, ?_, ?_, ?_, ?_⟩
        · intro j hj1 hjlen
          simp only [List.length_singleton] at hjlen
          omega
        · intro u hu
          rw [List.mem_singleton] at hu
          subst hu
          show (0 : Nat) < 1
          omega
        · intro p2 hp2
          simp at hp2
        · intro e he
          rw [List.mem_singleton] at he
          subst he
          simp [putUnder]
      obtain ⟨-, -, -, -, -, htr⟩ :=
        runM_preserves_pathInv T (base ++ "/" ++ jstr v) k _ hJ3
      refine ⟨by rw [hs0]; exact List.mem_singleton.mpr rfl, ?_, ?_⟩
      · intro p ty hmem
        rw [hw] at hmem
        have := htr _ hmem
        simpa [putUnder] using this
      · intro hfalse
        rw [hfalse] at hfv
        simp at hfv
    · -- a truthy name value: the Naming write for the extended path is
      -- dispatched as the third synchronous action
      have hfv2 : ¬ falsy v = true := hfv
      have e3 : step T (⟨[⟨base, partitionTasks obj, 0, 1, .ctop⟩],
          [.dispatchItem 0 0 "name" v], [], [.evWorkStart 0 base]⟩ : St) = some
          ⟨[⟨base ++ "/" ++ jstr v, partitionTasks obj, 0, 1, .ctop⟩], [],
           [⟨0, 0, base ++ "/" ++ jstr v⟩],
           [.evWorkStart 0 base, .evPut (base ++ "/" ++ jstr v) (get_type "name")]⟩ := by
        show some (execTask (.dispatchItem 0 0 "name" v) _) = _
        simp only [execTask]
        rw [if_pos (by exact ⟨trivial, trivial⟩)]
        simp only [putStep, if_neg hfv2]
        rfl
      have hw : workRun T (k + 3) base obj =
          runM T k ⟨[⟨base ++ "/" ++ jstr v, partitionTasks obj, 0, 1, .ctop⟩], [],
            [⟨0, 0, base ++ "/" ++ jstr v⟩],
            [.evWorkStart 0 base, .evPut (base ++ "/" ++ jstr v) (get_type "name")]⟩ := by
        calc workRun T (k + 3) base obj
            = runM T (k + 2) ⟨[⟨base, partitionTasks obj, 0, 0, .ctop⟩],
                [.startSlot 0], [], [.evWorkStart 0 base]⟩ :=
              runM_step_eq T (k + 2) _ _ e1
          _ = runM T (k + 1) ⟨[⟨base, partitionTasks obj, 0, 1, .ctop⟩],
                [.dispatchItem 0 0 "name" v], [], [.evWorkStart 0 base]⟩ :=
              runM_step_eq T (k + 1) _ _ e2
          _ = _ := runM_step_eq T k _ _ e3
      have hJ3 : pathInv (base ++ "/" ++ jstr v)
          ⟨[⟨base ++ "/" ++ jstr v, partitionTasks obj, 0, 1, .ctop⟩], [],
           [⟨0, 0, base ++ "/" ++ jstr v⟩],
           [.evWorkStart 0 base, .evPut (base ++ "/" ++ jstr v) (get_type "name")]⟩ := by
        refine ⟨by simp, rfl, ?_, ?_, ?_, ?_⟩
        · intro j hj1 hjlen
          simp only [List.length_singleton] at hjlen
          omega
        · intro u hu
          simp at hu
        · intro p2 hp2
          rw [List.mem_singleton] at hp2
          subst hp2
          show (0 : Nat) < 1
          omega
        · intro e he
          simp only [List.mem_cons, List.mem_singleton] at he
          rcases he with rfl | rfl | he
          · simp [putUnder]
          · exact Or.inl rfl
          · simp at he
      obtain ⟨-, -, -, -, -, htr⟩ :=
        runM_preserves_pathInv T (base ++ "/" ++ jstr v) k _ hJ3
      refine ⟨by rw [hs0]; exact List.mem_singleton.mpr rfl, ?_, ?_⟩
      · intro p ty hmem
        rw [hw] at hmem
        have := htr _ hmem
        simpa [putUnder] using this
      · intro _
        rw [hw]
        obtain ⟨d, hd⟩ := runM_trace_mono T k
          ⟨[⟨base ++ "/" ++ jstr v, partitionTasks obj, 0, 1, .ctop⟩], [],
           [⟨0, 0, base ++ "/" ++ jstr v⟩],
           [.evWorkStart 0 base, .evPut (base ++ "/" ++ jstr v) (get_type "name")]⟩
        rw [hd]
        exact List.mem_append_left d (by simp)
  · intro hnone hfuel p ty hmem
    have hs0 : (partitionTasks obj).s0 = [] := by
      rw [partition_s0 obj]
      exact slot0Spec_of_jget_none obj hnone
    obtain ⟨k, rfl⟩ : ∃ k, fuel = k + 1 := ⟨fuel - 1, by omega⟩
    have e1 : step T (initSt base obj) = some
        ⟨[⟨base, partitionTasks obj, 0, 0, .ctop⟩], [.startSlot 0], [],
         [.evWorkStart 0 base]⟩ := rfl
    have hJ1 : pathInv base
        ⟨[⟨base, partitionTasks obj, 0, 0, .ctop⟩], [.startSlot 0], [],
         [.evWorkStart 0 base]⟩ := by
      refine ⟨by simp, rfl, ?_, ?_, ?_, ?_⟩
      · intro j hj1 hjlen
        simp only [List.length_singleton] at hjlen
        omega
      · intro u hu
        rw [List.mem_singleton] at hu
        subst hu
        refine ⟨by simp, fun _ _ => ?_⟩
        exact hs0
      · intro p2 hp2
        simp at hp2
      · intro e he
        rw [List.mem_singleton] at he
        subst he
        simp [putUnder]
    have hw : workRun T (k + 1) base obj =
        runM T k ⟨[⟨base, partitionTasks obj, 0, 0, .ctop⟩], [.startSlot 0], [],
          [.evWorkStart 0 base]⟩ :=
      runM_step_eq T k _ _ e1
    obtain ⟨-, -, -, -, -, htr⟩ := runM_preserves_pathInv T base k _ hJ1
    rw [hw] at hmem
    have := htr _ hmem
    simpa [putUnder] using this

/-- Witness for C6 at the recursion example: the Naming write for
`/b/svc1` is present in the completed run. -/
theorem name_field_extends_base_path_witness :
    Ev.evPut ("/b" ++ "/" ++ jstr (.vstr "svc1")) (get_type "name")
      ∈ (workRun okT 40 "/b" recObj).trace :=
  ((name_field_extends_base_path okT 40 "/b" recObj).1 (.vstr "svc1") rfl
    (by decide) (by omega)).2.2 rfl
